import Mathlib

/-!
Verification of the BGZF2 container implementation (src/bgzf2.c).

This file is a shallow embedding of the parts of bgzf2.c that the checked
claims are about:

* the single-threaded writer path (`bgzf2_write`, `bgzf2_flush`,
  `bgzf2_write_block`, `write_pzstd_skippable`, `bgzf2_add_index`,
  `bgzf2_set_block_size`, `bgzf2_close`),
* the single-threaded reader path (`bgzf2_read`, `bgzf2_decode_block`,
  `bgzf2_read_block`),
* the seekable index (`load_seekable_index`, `index_query`, `bgzf2_seek`).

Bytes are modelled as `Nat`.  The Zstd codec is an external collaborator
(spec, section 1): compression is abstracted by a size function
`csize : List Nat → Nat` giving the compressed size of a payload, and
decompression of a frame produced by this writer returns the original
payload.  Data frames in the model therefore carry their uncompressed
content, and a data frame occupies `csize content` bytes on disk.

hFILE I/O is abstracted: the file is the list of frames written (writer
side) or still to be read (reader side).  Allocation failures and raw
I/O failures are out of the model; C loops are modelled with fuel,
and a `none` result of a fuelled function means the C loop did not
terminate within that fuel.
-/

namespace BGZF2

/-- BGZF2_MAX_BLOCK_SIZE from htslib/bgzf2.h: `(1<<30)`. -/
def BGZF2_MAX_BLOCK_SIZE : Nat := 2 ^ 30

/-- BGZF2_DEFAULT_BLOCK_SIZE from htslib/bgzf2.h. -/
def BGZF2_DEFAULT_BLOCK_SIZE : Nat := 256000

/-- One frame of a BGZF2 file.

* `header` is the BGZF2 header frame (magic 0x184D2A5B) described by
  BGZF2.md; no code in bgzf2.c ever writes one, the constructor exists so
  that "the file contains a header frame" is statable.
* `preface c` is the 12-byte pzstd skippable frame (magic 0x184D2A50,
  length 4, payload = compressed size `c` of the next data frame).
* `data content` is a Zstd data frame whose decompressed payload is
  `content`; it occupies `csize content` bytes on disk and carries its
  content size (compress_block sets ZSTD_c_contentSizeFlag).
* `skip` is any other skippable frame (magic in [0x184D2A50,0x184D2A5F]),
  e.g. the trailing seekable-index frame; readers skip it. -/
inductive Frame where
  | header
  | preface (compSz : Nat)
  | data (content : List Nat)
  | skip
deriving DecidableEq, Repr

/-- Concatenation of a list of byte lists. -/
def concatL : List (List Nat) → List Nat
  | [] => []
  | d :: ds => d ++ concatL ds

/-- The uncompressed payload bytes of a frame list, in file order. -/
def dataBytes : List Frame → List Nat
  | [] => []
  | Frame.data d :: fs => d ++ dataBytes fs
  | _ :: fs => dataBytes fs

/-- Number of BGZF2 header frames in a frame list. -/
def countHeader : List Frame → Nat
  | [] => 0
  | Frame.header :: fs => countHeader fs + 1
  | _ :: fs => countHeader fs

/-- Number of Zstd data frames in a frame list. -/
def countData : List Frame → Nat
  | [] => 0
  | Frame.data _ :: fs => countData fs + 1
  | _ :: fs => countData fs

/-- On-disk byte cost of the preface and data frames of a file: a preface
skippable frame is 12 bytes, a data frame is its compressed size; other
(index/header) frames are not counted. -/
def frameBytes (csize : List Nat → Nat) : List Frame → Nat
  | [] => 0
  | Frame.preface _ :: fs => 12 + frameBytes csize fs
  | Frame.data d :: fs => csize d + frameBytes csize fs
  | _ :: fs => frameBytes csize fs

/-- The frame stream emitted for payload blocks `ds`: one preface plus one
data frame per block (bgzf2_write_block emits exactly this pair). -/
def pairsOf (csize : List Nat → Nat) : List (List Nat) → List Frame
  | [] => []
  | d :: ds => Frame.preface (csize d) :: Frame.data d :: pairsOf csize ds

/-- The seekable-index entries (uncomp, comp) accumulated for blocks `ds`:
write_pzstd_skippable adds (0, 12) for the preface, then bgzf2_add_index
adds (block size, compressed size) for the data frame. -/
def idxOf (csize : List Nat → Nat) : List (List Nat) → List (Nat × Nat)
  | [] => []
  | d :: ds => (0, 12) :: (d.length, csize d) :: idxOf csize ds

/-! ### Writer state (struct bgzf2, write side) -/

/-- The uncompressed buffer `fp->uncomp`: `data` is the buffered bytes
`buf[0..pos)` (so `pos = data.length`) and `sz` is the logical size
`uncomp->sz` (the block size target).  Bytes between `pos` and `sz` are
uninitialised in C and not represented. -/
structure WBuf where
  data : List Nat
  sz : Nat
deriving DecidableEq, Repr

/-- Writer-side fields of struct bgzf2 used by the claims: the uncompressed
buffer, `block_size`, the `first_block` flag, the frames written so far
(the output file) and the in-memory seekable index entries (uncomp, comp). -/
structure WState where
  uncomp : WBuf
  blockSize : Nat
  firstBlock : Bool
  frames : List Frame
  index : List (Nat × Nat)
deriving DecidableEq, Repr

/-- bgzf2_buffer_grow: ensures the logical size is `n`; it sets `b->sz = n`
unconditionally (`alloc` growth is memory management, not modelled). -/
def bufGrow (b : WBuf) (n : Nat) : WBuf := { b with sz := n }

/-- bgzf2_write_block (bgzf2.c:1038): compress the buffered bytes, emit the
pzstd preface skippable frame (adding index entry (0,12)), add the data
index entry (buf->pos, comp size), write the compressed frame, and reset
`uncomp->pos = 0`. -/
def bgzf2_write_block (csize : List Nat → Nat) (st : WState) : WState :=
  let c := csize st.uncomp.data
  { st with
    frames := st.frames ++ [Frame.preface c, Frame.data st.uncomp.data],
    index := st.index ++ [(0, 12), (st.uncomp.data.length, c)],
    uncomp := { st.uncomp with data := [] } }

/-- bgzf2_flush (bgzf2.c:1111): no-op when nothing is buffered; otherwise
write the block; after the first flush, clear `first_block` and grow the
uncompressed buffer to the full `block_size`. -/
def bgzf2_flush (csize : List Nat → Nat) (st : WState) : WState :=
  if st.uncomp.data.length = 0 then st
  else
    let st1 := bgzf2_write_block csize st
    if st1.firstBlock then
      { st1 with firstBlock := false, uncomp := bufGrow st1.uncomp st1.blockSize }
    else st1

/-- bgzf2_set_block_size (bgzf2.c:1174): record the new block size, flush
any buffered data, and grow the buffer, capping the first block at 1024
bytes (`sz = sz < 1024 ? sz : 1024`). -/
def bgzf2_set_block_size (csize : List Nat → Nat) (st : WState) (sz : Nat) : WState :=
  let st1 := bgzf2_flush csize { st with blockSize := sz }
  let sz2 := if st1.firstBlock then min sz 1024 else sz
  { st1 with uncomp := bufGrow st1.uncomp sz2 }

/-- A freshly opened writer: bgzf2_open_common sets `first_block = 1` and
calls bgzf2_set_block_size(fp, BGZF2_DEFAULT_BLOCK_SIZE), which (with an
empty buffer, nothing to flush) leaves `block_size = 256000` and grows the
uncompressed buffer to `min 256000 1024 = 1024`. -/
def wOpen : WState :=
  { uncomp := { data := [], sz := 1024 },
    blockSize := BGZF2_DEFAULT_BLOCK_SIZE,
    firstBlock := true,
    frames := [],
    index := [] }

/-- The do/while loop of bgzf2_write (bgzf2.c:1328-1366), with fuel.  Each
iteration: if the buffer is full, flush; `consumes = MIN(sz - pos, buf_sz)`;
if the remainder fits or `can_split` is set, copy `consumes` bytes in
(advancing `pos`); otherwise flush and grow the (now empty) buffer to
`buf_sz` (the C memcpy at `pos = 0` without advancing `pos` leaves the
buffered content logically empty), then loop.  The loop exits when all of
`buf` is consumed.  `none` models a non-terminating loop. -/
def bgzf2_write_loop (csize : List Nat → Nat) (canSplit : Bool) :
    Nat → WState → List Nat → Option WState
  | 0, _, _ => none
  | fuel + 1, st0, buf =>
    let st := if st0.uncomp.sz = st0.uncomp.data.length then bgzf2_flush csize st0 else st0
    let consumes := min (st.uncomp.sz - st.uncomp.data.length) buf.length
    if consumes = buf.length ∨ canSplit = true then
      let st' := { st with uncomp := { st.uncomp with
                     data := st.uncomp.data ++ buf.take consumes } }
      let buf' := buf.drop consumes
      if buf'.length = 0 then some st'
      else bgzf2_write_loop csize canSplit fuel st' buf'
    else
      let st1 := bgzf2_flush csize st
      let st2 := { st1 with uncomp := bufGrow st1.uncomp buf.length }
      bgzf2_write_loop csize canSplit fuel st2 buf

/-- bgzf2_write: runs the loop (fuel 2|buf|+2 always suffices, see
`bgzf2_write_loop_ok`).  NB the C function accumulates the consumed byte
count in `r` but its final statement is `return 0`, so every successful
call returns 0. -/
def bgzf2_write (csize : List Nat → Nat) (st : WState) (buf : List Nat)
    (canSplit : Bool) : Option (WState × Int) :=
  (bgzf2_write_loop csize canSplit (2 * buf.length + 2) st buf).map (fun st' => (st', 0))

/-- One public writer operation. -/
inductive WOp where
  | write (buf : List Nat) (canSplit : Bool)
  | flush
  | setBlockSize (sz : Nat)

/-- Run a sequence of writer operations. -/
def runOps (csize : List Nat → Nat) : WState → List WOp → Option WState
  | st, [] => some st
  | st, WOp.write buf cs :: ops =>
    match bgzf2_write csize st buf cs with
    | none => none
    | some (st', _) => runOps csize st' ops
  | st, WOp.flush :: ops => runOps csize (bgzf2_flush csize st) ops
  | st, WOp.setBlockSize sz :: ops => runOps csize (bgzf2_set_block_size csize st sz) ops

/-- bgzf2_close, writer side (bgzf2.c:1264): flush the remaining buffered
data (bgzf2_drain with no pool) and append the trailing seekable-index
skippable frame (write_seekable_index). -/
def bgzf2_close_w (csize : List Nat → Nat) (st : WState) : WState :=
  let st1 := bgzf2_flush csize st
  { st1 with frames := st1.frames ++ [Frame.skip] }

/-- The logical uncompressed stream of a writer state: payload of all data
frames written so far followed by the not-yet-flushed buffered bytes. -/
def wStream (st : WState) : List Nat := dataBytes st.frames ++ st.uncomp.data

/-- The bytes passed to bgzf2_write by a sequence of operations. -/
def writtenBytes : List WOp → List Nat
  | [] => []
  | WOp.write buf _ :: ops => buf ++ writtenBytes ops
  | _ :: ops => writtenBytes ops

/-- Operation bounds under which the writer loops terminate and frames stay
within BGZF2_MAX_BLOCK_SIZE: block sizes in [1, MAX] and write payloads at
most MAX (the spec only quotes block sizes from 1 up to MAX_BLOCK_SIZE). -/
def opsGood : List WOp → Prop
  | [] => True
  | WOp.write buf _ :: ops => buf.length ≤ BGZF2_MAX_BLOCK_SIZE ∧ opsGood ops
  | WOp.flush :: ops => opsGood ops
  | WOp.setBlockSize sz :: ops => (1 ≤ sz ∧ sz ≤ BGZF2_MAX_BLOCK_SIZE) ∧ opsGood ops

/-- Block lists whose members are non-empty and within MAX_BLOCK_SIZE. -/
def dsGood : List (List Nat) → Prop
  | [] => True
  | d :: ds => (d ≠ [] ∧ d.length ≤ BGZF2_MAX_BLOCK_SIZE) ∧ dsGood ds

instance opsGoodDec : (ops : List WOp) → Decidable (opsGood ops)
  | [] => Decidable.isTrue trivial
  | WOp.write buf cs :: ops =>
    have : Decidable (opsGood ops) := opsGoodDec ops
    inferInstanceAs (Decidable (_ ∧ _))
  | WOp.flush :: ops => opsGoodDec ops
  | WOp.setBlockSize sz :: ops =>
    have : Decidable (opsGood ops) := opsGoodDec ops
    inferInstanceAs (Decidable (_ ∧ _))

instance dsGoodDec : (ds : List (List Nat)) → Decidable (dsGood ds)
  | [] => Decidable.isTrue trivial
  | d :: ds =>
    have : Decidable (dsGood ds) := dsGoodDec ds
    inferInstanceAs (Decidable (_ ∧ _))

/-- Invariant of a writer state: buffer sizes in range, buffered bytes fit,
block size in range, and the output so far is preface/data pairs for some
good block list with the matching index entries. -/
def WInv (csize : List Nat → Nat) (st : WState) : Prop :=
  1 ≤ st.uncomp.sz ∧ st.uncomp.sz ≤ BGZF2_MAX_BLOCK_SIZE ∧
  st.uncomp.data.length ≤ st.uncomp.sz ∧
  1 ≤ st.blockSize ∧ st.blockSize ≤ BGZF2_MAX_BLOCK_SIZE ∧
  ∃ ds, st.frames = pairsOf csize ds ∧ st.index = idxOf csize ds ∧ dsGood ds

/-! ### Reader state (struct bgzf2, read side) -/

/-- The decoded buffer `fp->uncomp` on the read side: `content` is the
decompressed block (`sz = content.length`) and `pos` the consumer cursor. -/
structure RBuf where
  content : List Nat
  pos : Nat
deriving DecidableEq, Repr

/-- Reader-side fields of struct bgzf2: the frames still to be read, the
current decoded buffer, and the `hit_eof` latch. -/
structure RState where
  frames : List Frame
  buf : RBuf
  hitEof : Bool
deriving DecidableEq, Repr

/-- Result of bgzf2_read_block: `eof` models return 0 (clean EOF, or a
frame whose content size is 0 — `if (usize == 0) return 0`), `ok` models a
positive return with the compressed frame loaded, `fail` models -1 (e.g. a
preface not followed by a well-formed data frame), `stream` models -3 (the
next frame is not pzstd-framed). -/
inductive BlockRes where
  | eof
  | ok (content : List Nat) (rest : List Frame)
  | fail
  | stream
deriving DecidableEq, Repr

/-- bgzf2_read_block (bgzf2.c:1379): read the next 8-byte frame header; at
end of input return 0.  A skippable frame that is not a pzstd preface
(magic ≠ 0x184D2A50 or length ≠ 4, with magic in [0x184D2A50,0x184D2A5F])
is skipped; a non-skippable magic means a raw Zstd stream (-3).  After a
preface, the compressed data frame is read and its content size probed
(ZSTD_getFrameContentSize); content size 0 returns 0. -/
def bgzf2_read_block : List Frame → BlockRes
  | [] => BlockRes.eof
  | Frame.header :: rest => bgzf2_read_block rest
  | Frame.skip :: rest => bgzf2_read_block rest
  | Frame.data _ :: _ => BlockRes.stream
  | Frame.preface _ :: rest =>
    match rest with
    | Frame.data content :: rest' =>
      if content.length = 0 then BlockRes.eof else BlockRes.ok content rest'
    | _ => BlockRes.fail

/-- bgzf2_decode_block (bgzf2.c:1579): fetch the next block and decompress
it into `fp->uncomp` (bgzf2_decompress_block; for frames produced by this
writer decompression returns the stored content, and a declared size above
BGZF2_MAX_BLOCK_SIZE is rejected with -1).  Returns the usize codes of the
C function: >0 decoded size, 0 EOF, -1 failure, -3 stream mode. -/
def bgzf2_decode_block (st : RState) : Int × RState :=
  match bgzf2_read_block st.frames with
  | BlockRes.eof => (0, st)
  | BlockRes.fail => (-1, st)
  | BlockRes.stream => (-3, st)
  | BlockRes.ok content rest =>
    if BGZF2_MAX_BLOCK_SIZE < content.length then (-1, { st with frames := rest })
    else ((content.length : Int), { st with frames := rest, buf := { content := content, pos := 0 } })

/-- The while loop of bgzf2_read (bgzf2.c:1691-1711), with fuel.  NB: the C
code stores the decode result in `size_t n`, so the `if (n < 0)` error
check compares an unsigned value and never fires; the model reproduces
this by reducing the Int result modulo 2^64 into a Nat (negative codes
become huge positive values ≠ 0 and fall through to the copy, which copies
0 bytes and loops).  Accumulates the bytes delivered to the caller in
`out` and the count in `decoded`. -/
def bgzf2_read_loop : Nat → RState → Nat → List Nat → Nat →
    Option (RState × List Nat × Nat)
  | 0, _, _, _, _ => none
  | fuel + 1, st, bufSz, out, decoded =>
    if bufSz = 0 then some (st, out, decoded)
    else if st.buf.pos = st.buf.content.length then
      let r := bgzf2_decode_block st
      let n : Nat := (r.1 % (2 ^ 64 : Int)).toNat
      if n = 0 then some ({ r.2 with hitEof := true }, out, decoded)
      else
        let c := min bufSz (r.2.buf.content.length - r.2.buf.pos)
        bgzf2_read_loop fuel { r.2 with buf := { r.2.buf with pos := r.2.buf.pos + c } }
          (bufSz - c) (out ++ (r.2.buf.content.drop r.2.buf.pos).take c) (decoded + c)
    else
      let c := min bufSz (st.buf.content.length - st.buf.pos)
      bgzf2_read_loop fuel { st with buf := { st.buf with pos := st.buf.pos + c } }
        (bufSz - c) (out ++ (st.buf.content.drop st.buf.pos).take c) (decoded + c)

/-- bgzf2_read (bgzf2.c:1681): returns 0 immediately once `hit_eof` is
latched, otherwise runs the loop. -/
def bgzf2_read (fuel : Nat) (st : RState) (bufSz : Nat) :
    Option (RState × List Nat × Nat) :=
  if st.hitEof then some (st, [], 0)
  else bgzf2_read_loop fuel st bufSz [] 0

/-- A reader freshly positioned at the start of `file` (fp->uncomp is NULL,
which behaves like an exhausted empty buffer). -/
def rInit (file : List Frame) : RState :=
  { frames := file, buf := { content := [], pos := 0 }, hitEof := false }

/-- Read a whole file: one bgzf2_read call with a buffer larger than the
total payload, which loops to EOF and returns all the bytes.  The fuel is
a crude upper bound on the loop iterations. -/
def readAllBytes (file : List Frame) : Option (List Nat) :=
  match bgzf2_read ((dataBytes file).length + 2 * file.length + 4) (rInit file)
      ((dataBytes file).length + 1) with
  | some (_, out, _) => some out
  | none => none

/-- Write a byte sequence in the given split pattern (each chunk with its
own can_split flag) at the given block size, close, reopen and read it all
back. -/
def bgzf2_roundtrip (csize : List Nat → Nat) (bsize : Nat)
    (chunks : List (List Nat × Bool)) : Option (List Nat) :=
  (runOps csize wOpen
      (WOp.setBlockSize bsize :: chunks.map (fun c => WOp.write c.1 c.2))).bind
    (fun st => readAllBytes (bgzf2_close_w csize st).frames)

/-! ### Seekable index: entries, query, seek -/

/-- Entry `i` of an index given as on-disk (comp, uncomp) pairs, defaulting
to (0,0) out of range (nindex = 0 makes the C code read out of bounds; the
claims only concern non-empty indices). -/
def entD : List (Nat × Nat) → Nat → Nat × Nat
  | [], _ => (0, 0)
  | p :: _, 0 => p
  | _ :: ps, i + 1 => entD ps i

/-- The `uncomp` field of entry `i`. -/
def uncompAt (ps : List (Nat × Nat)) (i : Nat) : Nat := (entD ps i).2

/-- The `pos` field of entry `i` as computed by load_seekable_index: the
running sum of the `uncomp` fields of the preceding entries. -/
def posAt : List (Nat × Nat) → Nat → Nat
  | _, 0 => 0
  | [], _ + 1 => 0
  | p :: ps, i + 1 => p.2 + posAt ps i

/-- Total uncompressed size recorded by the index. -/
def totalUncomp (ps : List (Nat × Nat)) : Nat := posAt ps ps.length

/-- The binary-search for loop of index_query (bgzf2.c:1848-1853), with
fuel: `for (imid = (iend+1)/2; imid != istart; imid = (istart+iend)/2)`
refining (istart, iend) by comparing `idx[imid].pos` with `upos`. -/
def bsearchLoop (ps : List (Nat × Nat)) (u : Nat) :
    Nat → Nat → Nat → Nat → Nat
  | fuel, istart, iend, imid =>
    if imid = istart then imid
    else
      match fuel with
      | 0 => imid
      | fuel' + 1 =>
        if u ≤ posAt ps imid then bsearchLoop ps u fuel' istart imid ((istart + imid) / 2)
        else bsearchLoop ps u fuel' imid iend ((imid + iend) / 2)

/-- The skip-forward loops of index_query
(`while (imid+1 < fp->nindex && idx[imid].uncomp == 0) imid++`), fuelled;
fuel `ps.length` always suffices. -/
def skipFwd (ps : List (Nat × Nat)) : Nat → Nat → Nat
  | 0, i => i
  | fuel + 1, i =>
    if i + 1 < ps.length ∧ uncompAt ps i = 0 then skipFwd ps fuel (i + 1) else i

/-- The walk-back loop of index_query
(`while (imid > 0 && idx[imid-1].uncomp == 0) imid--`). -/
def walkBack (ps : List (Nat × Nat)) : Nat → Nat
  | 0 => 0
  | i + 1 => if uncompAt ps i = 0 then walkBack ps i else i + 1

/-- Tail of index_query from the second range check on (bgzf2.c:1869-1880):
if the advanced entry still ends at or before `upos`, fail with ERANGE
(NULL, modelled as `none`); otherwise walk back over the preceding
zero-uncomp entries and return. -/
def qFinish2 (ps : List (Nat × Nat)) (u : Nat) (k3 : Nat) : Option Nat :=
  if posAt ps k3 + uncompAt ps k3 ≤ u then none
  else some (walkBack ps k3)

/-- Tail of index_query after the first skip-forward (bgzf2.c:1861-1880):
if entry `k1` ends at or before `upos`, advance once (bounds permitting),
skip zero-uncomp entries, and re-check; otherwise walk back and return. -/
def qFinish (ps : List (Nat × Nat)) (u : Nat) (k1 : Nat) : Option Nat :=
  if posAt ps k1 + uncompAt ps k1 ≤ u then
    qFinish2 ps u (skipFwd ps ps.length (if k1 + 1 < ps.length then k1 + 1 else k1))
  else some (walkBack ps k1)

/-- index_query (bgzf2.c:1841): binary search for `upos`, skip forward over
zero-uncomp (skippable-frame) entries, re-check with one advance, and walk
back onto the preface entries.  Returns the index of the returned entry,
`none` for the NULL/ERANGE failure (the only NULL path sets ERANGE). -/
def index_query (ps : List (Nat × Nat)) (u : Nat) : Option Nat :=
  qFinish ps u
    (skipFwd ps ps.length
      (bsearchLoop ps u ps.length 0 (ps.length - 1) ((ps.length - 1 + 1) / 2)))

/-- bgzf2_seek (bgzf2.c:1891), no-pool path, with the index already loaded
and the hseek/bgzf2_decode_block I/O steps assumed to succeed (their
failures are raw I/O, outside the model): the result is 0 exactly when
index_query finds an entry, -1 when it returns NULL. -/
def bgzf2_seek (ps : List (Nat × Nat)) (u : Nat) : Int :=
  match index_query ps u with
  | none => -1
  | some _ => 0

/-! ### load_seekable_index at byte level -/

/-- le_to_u32 on a byte list at an offset. -/
def le32 (l : List Nat) (off : Nat) : Nat :=
  l.getD off 0 + 256 * l.getD (off + 1) 0 + 65536 * l.getD (off + 2) 0 +
    16777216 * l.getD (off + 3) 0

/-- load_seekable_index (bgzf2.c:1766) over a byte-level file.  `seekable`
models whether hseek on the underlying hFILE works (ESPIPE when not).
Returns the C return code and the parsed (comp, uncomp) entry list:
hseek(-9, SEEK_END) failing gives `-1 - (errno == ESPIPE)`; a trailing
magic/flags mismatch gives -3; the frame size is
`9 + nframes*4*(2 + has_chksum) + 8` where `has_chksum = footer[4] & 0x80`
(so 0 or 128, NOT 0 or 1); a failing hseek(-sz, SEEK_END) gives -1; an
index frame magic or length mismatch gives -3; otherwise the entries are
read at stride `4*(2+has_chksum)`. -/
def load_seekable_index (file : List Nat) (seekable : Bool) : Int × List (Nat × Nat) :=
  if seekable = false then (-2, [])
  else if file.length < 9 then (-1, [])
  else
    let f := file.length - 9
    if ¬(le32 file (f + 5) = 0x8F92EAB1 ∧ (file.getD (f + 4) 0) &&& 0x7C = 0) then (-3, [])
    else
      let hasChk := (file.getD (f + 4) 0) &&& 0x80
      let nframes := le32 file f
      let sz := 9 + nframes * 4 * (2 + hasChk) + 8
      if file.length < sz then (-1, [])
      else
        let b := file.length - sz
        if ¬(le32 file b = 0x184D2A5E ∧ le32 file (b + 4) = sz - 8) then (-3, [])
        else
          (0, (List.range nframes).map (fun i =>
            (le32 file (b + 8 + i * (4 * (2 + hasChk))),
             le32 file (b + 8 + i * (4 * (2 + hasChk)) + 4))))

/-- Trailing-footer validity, as checked at bgzf2.c:1776. -/
def trailingOk (file : List Nat) : Prop :=
  le32 file (file.length - 9 + 5) = 0x8F92EAB1 ∧
    (file.getD (file.length - 9 + 4) 0) &&& 0x7C = 0

instance (file : List Nat) : Decidable (trailingOk file) := by
  unfold trailingOk; infer_instance

/-- The index frame size computed at bgzf2.c:1782. -/
def idxFrameSz (file : List Nat) : Nat :=
  9 + le32 file (file.length - 9) * 4 *
    (2 + ((file.getD (file.length - 9 + 4) 0) &&& 0x80)) + 8

/-- Index frame header validity, as checked at bgzf2.c:1794-1797. -/
def headOk (file : List Nat) : Prop :=
  le32 file (file.length - idxFrameSz file) = 0x184D2A5E ∧
    le32 file (file.length - idxFrameSz file + 4) = idxFrameSz file - 8

instance (file : List Nat) : Decidable (headOk file) := by
  unfold headOk; infer_instance

/-- A 17-byte file that is exactly a valid empty seekable-index frame:
magic 0x184D2A5E, length 9, footer N=0, flags 0, magic 0x8F92EAB1. -/
def fileEmptyIdx : List Nat :=
  [0x5E, 0x2A, 0x4D, 0x18, 9, 0, 0, 0, 0, 0, 0, 0, 0, 0xB1, 0xEA, 0x92, 0x8F]

/-- A 29-byte file that is exactly a seekable-index frame with N=1 and the
per-entry-checksum flag (footer flags byte 0x80) set, with 12-byte entries
as the zstd seekable format prescribes: magic, length 21, one entry
(comp=40, uncomp=5, checksum=0), footer N=1, flags=0x80, magic. -/
def fileChkIdx : List Nat :=
  [0x5E, 0x2A, 0x4D, 0x18, 21, 0, 0, 0,
   40, 0, 0, 0, 5, 0, 0, 0, 0, 0, 0, 0,
   1, 0, 0, 0, 0x80, 0xB1, 0xEA, 0x92, 0x8F]

end BGZF2

namespace BGZF2

/-! ### Writer lemmas -/

theorem concatL_append (a b : List (List Nat)) :
    concatL (a ++ b) = concatL a ++ concatL b := by
  induction a with
  | nil => simp [concatL]
  | cons d ds ih => simp [concatL, ih]

theorem dataBytes_append (a b : List Frame) :
    dataBytes (a ++ b) = dataBytes a ++ dataBytes b := by
  induction a with
  | nil => simp [dataBytes]
  | cons f fs ih => cases f <;> simp [dataBytes, ih]

theorem pairsOf_append (csize : List Nat → Nat) (a b : List (List Nat)) :
    pairsOf csize (a ++ b) = pairsOf csize a ++ pairsOf csize b := by
  induction a with
  | nil => simp [pairsOf]
  | cons d ds ih => simp [pairsOf, ih]

theorem idxOf_append (csize : List Nat → Nat) (a b : List (List Nat)) :
    idxOf csize (a ++ b) = idxOf csize a ++ idxOf csize b := by
  induction a with
  | nil => simp [idxOf]
  | cons d ds ih => simp [idxOf, ih]

theorem dataBytes_pairsOf (csize : List Nat → Nat) (ds : List (List Nat)) :
    dataBytes (pairsOf csize ds) = concatL ds := by
  induction ds with
  | nil => simp [pairsOf, dataBytes, concatL]
  | cons d ds ih => simp [pairsOf, dataBytes, concatL, ih]

theorem dsGood_append (a b : List (List Nat)) (ha : dsGood a) (hb : dsGood b) :
    dsGood (a ++ b) := by
  induction a with
  | nil => simpa using hb
  | cons d ds ih =>
    obtain ⟨h1, h2⟩ := ha
    exact ⟨h1, ih h2⟩

theorem bgzf2_flush_of_ne (csize : List Nat → Nat) (st : WState)
    (hd : ¬ st.uncomp.data.length = 0) :
    bgzf2_flush csize st =
      { uncomp := { data := [], sz := if st.firstBlock then st.blockSize else st.uncomp.sz },
        blockSize := st.blockSize,
        firstBlock := false,
        frames := st.frames ++ [Frame.preface (csize st.uncomp.data),
                                Frame.data st.uncomp.data],
        index := st.index ++ [(0, 12),
                              (st.uncomp.data.length, csize st.uncomp.data)] } := by
  rw [bgzf2_flush, if_neg hd, bgzf2_write_block]
  by_cases hfb : st.firstBlock = true
  · simp [hfb, bufGrow]
  · have hfb' : st.firstBlock = false := by
      cases h : st.firstBlock
      · rfl
      · exact absurd h hfb
    simp [hfb', bufGrow]

theorem bgzf2_flush_of_eq (csize : List Nat → Nat) (st : WState)
    (hd : st.uncomp.data.length = 0) :
    bgzf2_flush csize st = st := by
  rw [bgzf2_flush, if_pos hd]

theorem bgzf2_flush_inv (csize : List Nat → Nat) (st : WState)
    (h : WInv csize st) :
    WInv csize (bgzf2_flush csize st) ∧
    wStream (bgzf2_flush csize st) = wStream st ∧
    (bgzf2_flush csize st).uncomp.data = [] ∧
    (bgzf2_flush csize st).blockSize = st.blockSize := by
  obtain ⟨h1, h2, h3, h4, h5, ds, hf, hi, hg⟩ := h
  by_cases hd : st.uncomp.data.length = 0
  · have hnil : st.uncomp.data = [] := List.length_eq_zero.mp hd
    rw [bgzf2_flush_of_eq csize st hd]
    exact ⟨⟨h1, h2, h3, h4, h5, ds, hf, hi, hg⟩, rfl, hnil, rfl⟩
  · have hds' : dsGood (ds ++ [st.uncomp.data]) := by
      refine dsGood_append _ _ hg ⟨⟨?_, le_trans h3 h2⟩, trivial⟩
      exact fun hnil => hd (by simp [hnil])
    rw [bgzf2_flush_of_ne csize st hd]
    refine ⟨⟨?_, ?_, ?_, h4, h5, ds ++ [st.uncomp.data], ?_, ?_, hds'⟩, ?_, rfl, rfl⟩
    · by_cases hfb : st.firstBlock = true <;> simp [hfb, h1, h4]
    · by_cases hfb : st.firstBlock = true <;> simp [hfb, h2, h5]
    · simp
    · rw [hf, pairsOf_append]; rfl
    · rw [hi, idxOf_append]; rfl
    · rw [wStream, wStream, dataBytes_append]
      simp [dataBytes]

theorem bgzf2_flush_emits (csize : List Nat → Nat) (st : WState)
    (hd : st.uncomp.data ≠ []) :
    (bgzf2_flush csize st).frames
        = st.frames ++ [Frame.preface (csize st.uncomp.data),
                        Frame.data st.uncomp.data] ∧
    (bgzf2_flush csize st).index
        = st.index ++ [(0, 12), (st.uncomp.data.length, csize st.uncomp.data)] := by
  have hd' : ¬ st.uncomp.data.length = 0 := by simpa using hd
  rw [bgzf2_flush_of_ne csize st hd']
  exact ⟨rfl, rfl⟩

end BGZF2

namespace BGZF2

theorem bgzf2_write_loop_ok (csize : List Nat → Nat) :
    ∀ (fuel : Nat) (buf : List Nat) (st : WState) (canSplit : Bool),
      2 * buf.length + 2 ≤ fuel →
      buf.length ≤ BGZF2_MAX_BLOCK_SIZE →
      WInv csize st →
      ∃ st', bgzf2_write_loop csize canSplit fuel st buf = some st' ∧
        WInv csize st' ∧ wStream st' = wStream st ++ buf ∧
        st'.blockSize = st.blockSize := by
  intro fuel
  induction fuel with
  | zero => intro buf st cs hfuel _ _; omega
  | succ fuel ih =>
    intro buf st cs hfuel hbuf hinv
    simp only [bgzf2_write_loop]
    generalize hst1 : (if st.uncomp.sz = st.uncomp.data.length
        then bgzf2_flush csize st else st) = st1
    have hst1props : WInv csize st1 ∧ wStream st1 = wStream st ∧
        st1.blockSize = st.blockSize ∧
        st1.uncomp.data.length < st1.uncomp.sz := by
      by_cases hfull : st.uncomp.sz = st.uncomp.data.length
      · rw [if_pos hfull] at hst1
        obtain ⟨hi1, hi2, hi3, hi4⟩ := bgzf2_flush_inv csize st hinv
        subst hst1
        refine ⟨hi1, hi2, hi4, ?_⟩
        rw [hi3]
        exact lt_of_lt_of_le Nat.zero_lt_one hi1.1
      · rw [if_neg hfull] at hst1
        subst hst1
        exact ⟨hinv, rfl, rfl, lt_of_le_of_ne hinv.2.2.1 (fun h => hfull h.symm)⟩
    obtain ⟨hinv1, hstr1, hbs1, hlt1⟩ := hst1props
    by_cases hc : min (st1.uncomp.sz - st1.uncomp.data.length) buf.length
        = buf.length ∨ cs = true
    · rw [if_pos hc]
      by_cases hdone : (buf.drop (min (st1.uncomp.sz - st1.uncomp.data.length)
          buf.length)).length = 0
      · rw [if_pos hdone]
        have hcb : min (st1.uncomp.sz - st1.uncomp.data.length) buf.length
            = buf.length := by
          rw [List.length_drop] at hdone
          omega
        refine ⟨_, rfl, ?_, ?_, hbs1⟩
        · obtain ⟨g1, g2, g3, g4, g5, ds, gf, gi, gg⟩ := hinv1
          refine ⟨g1, g2, ?_, g4, g5, ds, gf, gi, gg⟩
          simp only [List.length_append, List.length_take]
          omega
        · rw [wStream, wStream] at *
          simp only [hcb, List.take_length]
          rw [← List.append_assoc, hstr1]
      · rw [if_neg hdone]
        have hcle : min (st1.uncomp.sz - st1.uncomp.data.length) buf.length
            ≤ buf.length := Nat.min_le_right _ _
        have hcpos : 1 ≤ min (st1.uncomp.sz - st1.uncomp.data.length) buf.length := by
          rw [List.length_drop] at hdone
          omega
        have hrec := ih (buf.drop (min (st1.uncomp.sz - st1.uncomp.data.length)
            buf.length))
          { st1 with uncomp := { st1.uncomp with
              data := st1.uncomp.data ++ buf.take (min (st1.uncomp.sz
                - st1.uncomp.data.length) buf.length) } } cs
          (by rw [List.length_drop]; omega)
          (by rw [List.length_drop]; omega)
          (by
            obtain ⟨g1, g2, g3, g4, g5, ds, gf, gi, gg⟩ := hinv1
            refine ⟨g1, g2, ?_, g4, g5, ds, gf, gi, gg⟩
            simp only [List.length_append, List.length_take]
            omega)
        obtain ⟨st'', hrun, hinv'', hstr'', hbs''⟩ := hrec
        refine ⟨st'', hrun, hinv'', ?_, by rw [hbs'']; exact hbs1⟩
        rw [hstr'']
        rw [wStream, wStream] at *
        simp only []
        rw [List.append_assoc, List.append_assoc, List.take_append_drop]
        rw [← List.append_assoc, hstr1]
    · rw [if_neg hc]
      push_neg at hc
      obtain ⟨hcne, hcs⟩ := hc
      have hbl : 1 ≤ buf.length := by
        rcases Nat.eq_zero_or_pos buf.length with h0 | h1
        · exact absurd (by omega : min (st1.uncomp.sz - st1.uncomp.data.length)
            buf.length = buf.length) hcne
        · exact h1
      obtain ⟨hfi1, hfi2, hfi3, hfi4⟩ := bgzf2_flush_inv csize st1 hinv1
      cases fuel with
      | zero => omega
      | succ fuel2 =>
        simp only [bgzf2_write_loop]
        generalize hst3 : (if ({ bgzf2_flush csize st1 with
            uncomp := bufGrow (bgzf2_flush csize st1).uncomp buf.length } : WState).uncomp.sz
            = ({ bgzf2_flush csize st1 with
            uncomp := bufGrow (bgzf2_flush csize st1).uncomp buf.length } : WState).uncomp.data.length
            then bgzf2_flush csize { bgzf2_flush csize st1 with
              uncomp := bufGrow (bgzf2_flush csize st1).uncomp buf.length }
            else { bgzf2_flush csize st1 with
              uncomp := bufGrow (bgzf2_flush csize st1).uncomp buf.length }) = st3
        have hcond : ¬ ({ bgzf2_flush csize st1 with
            uncomp := bufGrow (bgzf2_flush csize st1).uncomp buf.length } : WState).uncomp.sz
            = ({ bgzf2_flush csize st1 with
            uncomp := bufGrow (bgzf2_flush csize st1).uncomp buf.length } : WState).uncomp.data.length := by
          intro h
          have h' : buf.length = (bgzf2_flush csize st1).uncomp.data.length := h
          rw [hfi3, List.length_nil] at h'
          omega
        rw [if_neg hcond] at hst3
        subst hst3
        have hlen3 : ({ bgzf2_flush csize st1 with
            uncomp := bufGrow (bgzf2_flush csize st1).uncomp buf.length } : WState).uncomp.data.length
            = 0 := by simp [bufGrow, hfi3]
        have hsz3 : ({ bgzf2_flush csize st1 with
            uncomp := bufGrow (bgzf2_flush csize st1).uncomp buf.length } : WState).uncomp.sz
            = buf.length := by simp [bufGrow]
        rw [hlen3, hsz3]
        have hmin : min (buf.length - 0) buf.length = buf.length := by omega
        rw [hmin]
        rw [if_pos (Or.inl rfl)]
        rw [if_pos (by simp)]
        refine ⟨_, rfl, ?_, ?_, ?_⟩
        · obtain ⟨g1, g2, g3, g4, g5, ds, gf, gi, gg⟩ := hfi1
          refine ⟨?_, ?_, ?_, g4, g5, ds, ?_, ?_, gg⟩
          · simpa [bufGrow] using hbl
          · simpa [bufGrow] using hbuf
          · simp [bufGrow, hfi3, List.take_length]
          · simpa [bufGrow] using gf
          · simpa [bufGrow] using gi
        · have hfr2 : dataBytes (bgzf2_flush csize st1).frames
              = dataBytes st.frames ++ st.uncomp.data := by
            have h2 : wStream (bgzf2_flush csize st1) = wStream st := hfi2.trans hstr1
            simp only [wStream, hfi3, List.append_nil] at h2
            exact h2
          simp only [wStream, bufGrow, hfi3]
          simp [hfr2]
        · simp only [bufGrow]
          rw [hfi4]
          exact hbs1

end BGZF2

namespace BGZF2

theorem bgzf2_write_ok (csize : List Nat → Nat) (st : WState) (buf : List Nat)
    (cs : Bool) (hbuf : buf.length ≤ BGZF2_MAX_BLOCK_SIZE) (hinv : WInv csize st) :
    ∃ st', bgzf2_write csize st buf cs = some (st', 0) ∧ WInv csize st' ∧
      wStream st' = wStream st ++ buf ∧ st'.blockSize = st.blockSize := by
  obtain ⟨st', h1, h2, h3, h4⟩ :=
    bgzf2_write_loop_ok csize (2 * buf.length + 2) buf st cs le_rfl hbuf hinv
  refine ⟨st', ?_, h2, h3, h4⟩
  rw [bgzf2_write, h1]
  rfl

theorem bgzf2_set_block_size_inv (csize : List Nat → Nat) (st : WState) (sz : Nat)
    (h : WInv csize st) (h1 : 1 ≤ sz) (h2 : sz ≤ BGZF2_MAX_BLOCK_SIZE) :
    WInv csize (bgzf2_set_block_size csize st sz) ∧
    wStream (bgzf2_set_block_size csize st sz) = wStream st ∧
    (bgzf2_set_block_size csize st sz).blockSize = sz := by
  have hst' : WInv csize { st with blockSize := sz } := by
    obtain ⟨g1, g2, g3, _, _, ds, gf, gi, gg⟩ := h
    exact ⟨g1, g2, g3, h1, h2, ds, gf, gi, gg⟩
  obtain ⟨hf1, hf2, hf3, hf4⟩ :=
    bgzf2_flush_inv csize { st with blockSize := sz } hst'
  rw [bgzf2_set_block_size]
  refine ⟨?_, ?_, hf4⟩
  · obtain ⟨g1, g2, g3, g4, g5, ds, gf, gi, gg⟩ := hf1
    refine ⟨?_, ?_, ?_, g4, g5, ds, ?_, ?_, gg⟩
    · by_cases hfb : (bgzf2_flush csize { st with blockSize := sz }).firstBlock = true <;>
        simp [hfb, bufGrow] <;> omega
    · by_cases hfb : (bgzf2_flush csize { st with blockSize := sz }).firstBlock = true <;>
        simp [hfb, bufGrow] <;> omega
    · simp [bufGrow, hf3]
    · simpa [bufGrow] using gf
    · simpa [bufGrow] using gi
  · simp only [wStream, bufGrow] at *
    simpa using hf2

theorem runOps_ok (csize : List Nat → Nat) :
    ∀ (ops : List WOp) (st : WState), WInv csize st → opsGood ops →
      ∃ st', runOps csize st ops = some st' ∧ WInv csize st' ∧
        wStream st' = wStream st ++ writtenBytes ops := by
  intro ops
  induction ops with
  | nil =>
    intro st hinv _
    exact ⟨st, rfl, hinv, by simp [writtenBytes]⟩
  | cons op ops ih =>
    intro st hinv hops
    cases op with
    | write buf cs =>
      obtain ⟨hb, hops'⟩ := hops
      obtain ⟨st1, hw, hinv1, hstr1, _⟩ := bgzf2_write_ok csize st buf cs hb hinv
      obtain ⟨st2, hr, hinv2, hstr2⟩ := ih st1 hinv1 hops'
      refine ⟨st2, ?_, hinv2, ?_⟩
      · rw [runOps, hw]
        exact hr
      · rw [hstr2, hstr1, writtenBytes, List.append_assoc]
    | flush =>
      obtain ⟨hf1, hf2, _, _⟩ := bgzf2_flush_inv csize st hinv
      obtain ⟨st2, hr, hinv2, hstr2⟩ := ih _ hf1 hops
      exact ⟨st2, hr, hinv2, by rw [hstr2, hf2]; rfl⟩
    | setBlockSize sz =>
      obtain ⟨⟨hs1, hs2⟩, hops'⟩ := hops
      obtain ⟨hb1, hb2, _⟩ := bgzf2_set_block_size_inv csize st sz hinv hs1 hs2
      obtain ⟨st2, hr, hinv2, hstr2⟩ := ih _ hb1 hops'
      exact ⟨st2, hr, hinv2, by rw [hstr2, hb2]; rfl⟩

theorem bgzf2_close_w_spec (csize : List Nat → Nat) (st : WState)
    (h : WInv csize st) :
    ∃ ds, (bgzf2_close_w csize st).frames = pairsOf csize ds ++ [Frame.skip] ∧
      (bgzf2_close_w csize st).index = idxOf csize ds ∧ dsGood ds ∧
      concatL ds = wStream st := by
  obtain ⟨hf1, hf2, hf3, _⟩ := bgzf2_flush_inv csize st h
  obtain ⟨_, _, _, _, _, ds, gf, gi, gg⟩ := hf1
  refine ⟨ds, ?_, ?_, gg, ?_⟩
  · rw [bgzf2_close_w]
    simp [gf]
  · rw [bgzf2_close_w]
    simpa using gi
  · have h2 := hf2
    rw [wStream, wStream, hf3, List.append_nil, gf, dataBytes_pairsOf] at h2
    exact h2

theorem wOpen_inv (csize : List Nat → Nat) : WInv csize wOpen := by
  refine ⟨?_, ?_, ?_, ?_, ?_, [], rfl, rfl, trivial⟩ <;>
    simp [wOpen, BGZF2_MAX_BLOCK_SIZE, BGZF2_DEFAULT_BLOCK_SIZE]

end BGZF2

namespace BGZF2

theorem emod_toNat_of_le (m : Nat) (h : m ≤ BGZF2_MAX_BLOCK_SIZE) :
    (((m : Int) % (2 ^ 64 : Int))).toNat = m := by
  have h1 : ((m : Int) % (2 ^ 64 : Int)) = (m : Int) := by
    apply Int.emod_eq_of_lt
    · exact Int.natCast_nonneg m
    · have : (m : Int) ≤ (BGZF2_MAX_BLOCK_SIZE : Int) := by exact_mod_cast h
      calc (m : Int) ≤ (BGZF2_MAX_BLOCK_SIZE : Int) := this
        _ < (2 ^ 64 : Int) := by norm_num [BGZF2_MAX_BLOCK_SIZE]
  rw [h1]
  exact Int.toNat_natCast m

theorem bgzf2_read_loop_all (csize : List Nat → Nat) :
    ∀ (ds : List (List Nat)) (tail : List Frame) (c out : List Nat)
      (dec bufSz fuel : Nat),
      dsGood ds → bgzf2_read_block tail = BlockRes.eof →
      (concatL ds).length + 1 ≤ bufSz →
      ds.length + 1 ≤ fuel →
      ∃ st', bgzf2_read_loop fuel
          { frames := pairsOf csize ds ++ tail,
            buf := { content := c, pos := c.length }, hitEof := false }
          bufSz out dec
        = some (st', out ++ concatL ds, dec + (concatL ds).length) ∧
        st'.hitEof = true := by
  intro ds
  induction ds with
  | nil =>
    intro tail c out dec bufSz fuel _ htail hbs hfuel
    cases fuel with
    | zero => omega
    | succ f =>
      simp only [bgzf2_read_loop]
      rw [if_neg (by omega : ¬ bufSz = 0)]
      simp only [if_true]
      have hdec : bgzf2_decode_block
          { frames := pairsOf csize [] ++ tail,
            buf := { content := c, pos := c.length }, hitEof := false }
          = (0, { frames := pairsOf csize [] ++ tail,
                  buf := { content := c, pos := c.length }, hitEof := false }) := by
        rw [bgzf2_decode_block]
        have : pairsOf csize [] ++ tail = tail := by simp [pairsOf]
        rw [this, htail]
      rw [hdec]
      dsimp only
      rw [if_pos (by norm_num : ((0 : Int) % (2 ^ 64 : Int)).toNat = 0)]
      refine ⟨{ frames := pairsOf csize [] ++ tail,
                buf := { content := c, pos := c.length }, hitEof := true },
              ?_, rfl⟩
      simp [concatL]
  | cons d ds ih =>
    intro tail c out dec bufSz fuel hds htail hbs hfuel
    obtain ⟨⟨hdne, hdmax⟩, hds'⟩ := hds
    have hdlen : 1 ≤ d.length := by
      cases d with
      | nil => exact absurd rfl hdne
      | cons a l => simp
    have hlen : (concatL (d :: ds)).length = d.length + (concatL ds).length := by
      simp [concatL]
    cases fuel with
    | zero => omega
    | succ f =>
      simp only [bgzf2_read_loop]
      rw [if_neg (by omega : ¬ bufSz = 0)]
      simp only [if_true]
      have hdec : bgzf2_decode_block
          { frames := pairsOf csize (d :: ds) ++ tail,
            buf := { content := c, pos := c.length }, hitEof := false }
          = ((d.length : Int),
             { frames := pairsOf csize ds ++ tail,
               buf := { content := d, pos := 0 }, hitEof := false }) := by
        rw [bgzf2_decode_block]
        have hfr : pairsOf csize (d :: ds) ++ tail
            = Frame.preface (csize d) :: Frame.data d :: (pairsOf csize ds ++ tail) := by
          simp [pairsOf]
        rw [hfr]
        have hrb : bgzf2_read_block
            (Frame.preface (csize d) :: Frame.data d :: (pairsOf csize ds ++ tail))
            = BlockRes.ok d (pairsOf csize ds ++ tail) := by
          rw [bgzf2_read_block]
          rw [if_neg (by omega : ¬ d.length = 0)]
        rw [hrb]
        dsimp only
        rw [if_neg (by omega : ¬ BGZF2_MAX_BLOCK_SIZE < d.length)]
      rw [hdec]
      have hn : (((d.length : Int) % (2 ^ 64 : Int))).toNat = d.length :=
        emod_toNat_of_le d.length hdmax
      rw [if_neg (by rw [hn]; omega)]
      dsimp only
      have hmin : min bufSz (d.length - 0) = d.length := by
        rw [hlen] at hbs
        omega
      rw [hmin]
      obtain ⟨st', hrun, hEof⟩ := ih tail d (out ++ (d.drop 0).take d.length)
        (dec + d.length) (bufSz - d.length) f hds' htail
        (by rw [hlen] at hbs; omega)
        (by simp only [List.length_cons] at hfuel; omega)
      refine ⟨st', ?_, hEof⟩
      have hst : ({ frames := pairsOf csize ds ++ tail,
                    buf := { content := d, pos := 0 + d.length },
                    hitEof := false } : RState)
          = { frames := pairsOf csize ds ++ tail,
              buf := { content := d, pos := d.length }, hitEof := false } := by
        simp
      rw [hst, hrun]
      simp [concatL, List.append_assoc, Nat.add_assoc, hlen]

theorem pairsOf_length (csize : List Nat → Nat) (ds : List (List Nat)) :
    (pairsOf csize ds).length = 2 * ds.length := by
  induction ds with
  | nil => simp [pairsOf]
  | cons d ds' ih =>
    simp only [pairsOf, List.length_cons]
    omega

theorem readAllBytes_spec (csize : List Nat → Nat) (ds : List (List Nat))
    (tail : List Frame) (hds : dsGood ds)
    (htail : bgzf2_read_block tail = BlockRes.eof) :
    readAllBytes (pairsOf csize ds ++ tail) = some (concatL ds) := by
  have hdb : concatL ds ++ dataBytes tail = dataBytes (pairsOf csize ds ++ tail) := by
    rw [dataBytes_append, dataBytes_pairsOf]
  have hle : (concatL ds).length + 1
      ≤ (dataBytes (pairsOf csize ds ++ tail)).length + 1 := by
    rw [← hdb]
    simp
  have hpl : (pairsOf csize ds).length = 2 * ds.length := pairsOf_length csize ds
  have hfl : ds.length + 1
      ≤ (dataBytes (pairsOf csize ds ++ tail)).length
        + 2 * (pairsOf csize ds ++ tail).length + 4 := by
    simp only [List.length_append]
    omega
  obtain ⟨st', hrun, _⟩ := bgzf2_read_loop_all csize ds tail [] [] 0
    ((dataBytes (pairsOf csize ds ++ tail)).length + 1)
    ((dataBytes (pairsOf csize ds ++ tail)).length
      + 2 * (pairsOf csize ds ++ tail).length + 4) hds htail hle hfl
  rw [readAllBytes, bgzf2_read]
  rw [if_neg (by simp [rInit])]
  have hinit : rInit (pairsOf csize ds ++ tail)
      = { frames := pairsOf csize ds ++ tail,
          buf := { content := [], pos := ([] : List Nat).length }, hitEof := false } := by
    simp [rInit]
  rw [hinit, hrun]
  simp

end BGZF2

namespace BGZF2

theorem countHeader_append (a b : List Frame) :
    countHeader (a ++ b) = countHeader a + countHeader b := by
  induction a with
  | nil => simp [countHeader]
  | cons f fs ih => cases f <;> simp [countHeader, ih] <;> omega

theorem countHeader_pairsOf (csize : List Nat → Nat) (ds : List (List Nat)) :
    countHeader (pairsOf csize ds) = 0 := by
  induction ds with
  | nil => rfl
  | cons d ds ih => simp [pairsOf, countHeader, ih]

theorem frameBytes_append (csize : List Nat → Nat) (a b : List Frame) :
    frameBytes csize (a ++ b) = frameBytes csize a + frameBytes csize b := by
  induction a with
  | nil => simp [frameBytes]
  | cons f fs ih => cases f <;> simp [frameBytes, ih] <;> omega

theorem idxOf_snd_sum (csize : List Nat → Nat) (ds : List (List Nat)) :
    ((idxOf csize ds).map Prod.snd).sum = frameBytes csize (pairsOf csize ds) := by
  induction ds with
  | nil => rfl
  | cons d ds ih => simp [idxOf, pairsOf, frameBytes, ih]

theorem idxOf_fst_sum (csize : List Nat → Nat) (ds : List (List Nat)) :
    ((idxOf csize ds).map Prod.fst).sum = (concatL ds).length := by
  induction ds with
  | nil => rfl
  | cons d ds ih => simp [idxOf, concatL, ih]

theorem opsGood_of_writes : ∀ (chunks : List (List Nat × Bool)),
    (∀ c ∈ chunks, c.1.length ≤ BGZF2_MAX_BLOCK_SIZE) →
    opsGood (chunks.map (fun c => WOp.write c.1 c.2)) := by
  intro chunks
  induction chunks with
  | nil => intro _; trivial
  | cons c cs ih =>
    intro h
    exact ⟨h c (List.mem_cons_self c cs), ih (fun x hx => h x (List.mem_cons_of_mem c hx))⟩

theorem writtenBytes_writes : ∀ (chunks : List (List Nat × Bool)),
    writtenBytes (chunks.map (fun c => WOp.write c.1 c.2))
      = concatL (chunks.map Prod.fst) := by
  intro chunks
  induction chunks with
  | nil => rfl
  | cons c cs ih => simp [writtenBytes, concatL, ih]

end BGZF2

namespace BGZF2

/-- C1: for every byte sequence (given in any split pattern as chunks with
their own can_split flags), every block size in [1, MAX_BLOCK_SIZE]
selected with bgzf2_set_block_size, and every compression behaviour
(arbitrary compressed-size function `csize`, covering every level),
writing the chunks with bgzf2_write, closing, reopening and reading with
bgzf2_read until EOF yields exactly the original bytes. -/
theorem bgzf2_write_read_roundtrip (csize : List Nat → Nat) (bsize : Nat)
    (chunks : List (List Nat × Bool))
    (h1 : 1 ≤ bsize) (h2 : bsize ≤ BGZF2_MAX_BLOCK_SIZE)
    (h3 : ∀ c ∈ chunks, c.1.length ≤ BGZF2_MAX_BLOCK_SIZE) :
    bgzf2_roundtrip csize bsize chunks = some (concatL (chunks.map Prod.fst)) := by
  have hops : opsGood (WOp.setBlockSize bsize
      :: chunks.map (fun c => WOp.write c.1 c.2)) :=
    ⟨⟨h1, h2⟩, opsGood_of_writes chunks h3⟩
  obtain ⟨st', hrun, hinv', hstr'⟩ := runOps_ok csize
    (WOp.setBlockSize bsize :: chunks.map (fun c => WOp.write c.1 c.2))
    wOpen (wOpen_inv csize) hops
  obtain ⟨ds, hfr, _, hgood, hconcat⟩ := bgzf2_close_w_spec csize st' hinv'
  rw [bgzf2_roundtrip, hrun, Option.some_bind, hfr]
  rw [readAllBytes_spec csize ds [Frame.skip] hgood rfl]
  congr 1
  rw [hconcat, hstr']
  have hws : wStream wOpen = [] := rfl
  rw [hws, List.nil_append]
  exact writtenBytes_writes chunks

/-- Witness for C1 at a concrete input. -/
theorem bgzf2_write_read_roundtrip_witness :
    bgzf2_roundtrip List.length 2 [([1, 2, 3], true), ([4, 5], false)]
      = some [1, 2, 3, 4, 5] :=
  bgzf2_write_read_roundtrip List.length 2 [([1, 2, 3], true), ([4, 5], false)]
    (by decide) (by decide) (by decide)

/-- C3 (code evidence): every successful bgzf2_write call returns 0, because
the C function ends in `return 0` after accumulating the consumed count in
an unused variable `r`; here, writing 3 bytes successfully returns 0, not
3, contradicting the documented "returns number of bytes written". -/
theorem bgzf2_write_returns_zero :
    (bgzf2_write List.length wOpen [9, 9, 9] true).map (fun p => p.2) = some 0 ∧
    (bgzf2_write List.length wOpen [9, 9, 9] true).map (fun p => p.2) ≠ some 3 := by
  constructor
  · rfl
  · decide

/-- C5 counterexample: a writer run with one non-empty flush (a 3-byte
write, closed) produces a file containing one data frame and zero BGZF2
header frames, refuting "the header frame appears exactly once". -/
theorem bgzf2_no_header_frame_concrete :
    countHeader (bgzf2_close_w List.length
        ((runOps List.length wOpen [WOp.write [1, 2, 3] true]).getD wOpen)).frames = 0 ∧
    countData (bgzf2_close_w List.length
        ((runOps List.length wOpen [WOp.write [1, 2, 3] true]).getD wOpen)).frames = 1 ∧
    (0 : Nat) ≠ 1 := by
  refine ⟨?_, ?_, by decide⟩ <;> rfl

/-- C5 (amended): every non-empty flush emits exactly one preface skippable
frame followed by one Zstd data frame, and the BGZF2 header frame is never
emitted — it appears zero times in any produced file (the header frame of
BGZF2.md is a TODO that bgzf2.c does not implement). -/
theorem bgzf2_flush_frames_amended (csize : List Nat → Nat) :
    (∀ st : WState, st.uncomp.data ≠ [] →
      (bgzf2_flush csize st).frames
        = st.frames ++ [Frame.preface (csize st.uncomp.data),
                        Frame.data st.uncomp.data]) ∧
    (∀ ops : List WOp, opsGood ops →
      ∃ st', runOps csize wOpen ops = some st' ∧
        countHeader (bgzf2_close_w csize st').frames = 0) := by
  constructor
  · intro st hd
    exact (bgzf2_flush_emits csize st hd).1
  · intro ops hops
    obtain ⟨st', hrun, hinv', _⟩ := runOps_ok csize ops wOpen (wOpen_inv csize) hops
    refine ⟨st', hrun, ?_⟩
    obtain ⟨ds, hfr, _, _, _⟩ := bgzf2_close_w_spec csize st' hinv'
    rw [hfr, countHeader_append, countHeader_pairsOf]
    rfl

/-- Witness for C5's amended theorem at concrete inputs. -/
theorem bgzf2_flush_frames_amended_witness :
    (bgzf2_flush List.length
        { uncomp := { data := [5], sz := 3 }, blockSize := 7,
          firstBlock := true, frames := [], index := [] }).frames
      = [Frame.preface 1, Frame.data [5]] ∧
    ∃ st', runOps List.length wOpen [WOp.write [9] true] = some st' ∧
      countHeader (bgzf2_close_w List.length st').frames = 0 :=
  ⟨(bgzf2_flush_frames_amended List.length).1 _ (by decide),
   (bgzf2_flush_frames_amended List.length).2 [WOp.write [9] true] (by decide)⟩

/-- C7: each non-empty flush appends first the preface entry (uncomp 0,
comp 12) and then the data entry (uncomp = flushed byte count, comp =
compressed size); consequently, for any writer run, the sum of the comp
fields of the index equals the total on-disk bytes of all preface and data
frames, and the sum of the uncomp fields equals the total bytes written. -/
theorem bgzf2_index_sums (csize : List Nat → Nat) :
    (∀ st : WState, st.uncomp.data ≠ [] →
      (bgzf2_flush csize st).index
        = st.index ++ [(0, 12), (st.uncomp.data.length, csize st.uncomp.data)]) ∧
    (∀ ops : List WOp, opsGood ops →
      ∃ st', runOps csize wOpen ops = some st' ∧
        ((bgzf2_close_w csize st').index.map Prod.snd).sum
          = frameBytes csize (bgzf2_close_w csize st').frames ∧
        ((bgzf2_close_w csize st').index.map Prod.fst).sum
          = (writtenBytes ops).length) := by
  constructor
  · intro st hd
    exact (bgzf2_flush_emits csize st hd).2
  · intro ops hops
    obtain ⟨st', hrun, hinv', hstr'⟩ := runOps_ok csize ops wOpen (wOpen_inv csize) hops
    refine ⟨st', hrun, ?_⟩
    obtain ⟨ds, hfr, hix, _, hconcat⟩ := bgzf2_close_w_spec csize st' hinv'
    constructor
    · rw [hfr, hix, frameBytes_append, idxOf_snd_sum]
      simp [frameBytes]
    · rw [hix, idxOf_fst_sum, hconcat, hstr']
      have hws : wStream wOpen = [] := rfl
      rw [hws, List.nil_append]

/-- Witness for C7 at concrete inputs. -/
theorem bgzf2_index_sums_witness :
    (bgzf2_flush List.length
        { uncomp := { data := [5, 6], sz := 4 }, blockSize := 7,
          firstBlock := false, frames := [], index := [] }).index
      = [(0, 12), (2, 2)] ∧
    ∃ st', runOps List.length wOpen [WOp.write [1, 2] true] = some st' ∧
      ((bgzf2_close_w List.length st').index.map Prod.snd).sum
        = frameBytes List.length (bgzf2_close_w List.length st').frames ∧
      ((bgzf2_close_w List.length st').index.map Prod.fst).sum
        = (writtenBytes [WOp.write [1, 2] true]).length :=
  ⟨(bgzf2_index_sums List.length).1 _ (by decide),
   (bgzf2_index_sums List.length).2 [WOp.write [1, 2] true] (by decide)⟩

theorem bgzf2_read_loop_err_none :
    ∀ (fuel : Nat) (out : List Nat) (dec : Nat),
      bgzf2_read_loop fuel
        { frames := [Frame.preface 5], buf := { content := [], pos := 0 },
          hitEof := false } 1 out dec = none := by
  intro fuel
  induction fuel with
  | zero => intro out dec; rfl
  | succ f ih =>
    intro out dec
    simp only [bgzf2_read_loop, List.length_nil]
    rw [if_neg (by omega : ¬ (1 : Nat) = 0)]
    simp only [if_true]
    have hdec : bgzf2_decode_block
        { frames := [Frame.preface 5], buf := { content := [], pos := 0 },
          hitEof := false }
        = (-1, { frames := [Frame.preface 5], buf := { content := [], pos := 0 },
                 hitEof := false }) := rfl
    rw [hdec]
    rw [if_neg (by decide : ¬ (((-1 : Int) % (2 ^ 64 : Int)).toNat = 0))]
    dsimp only
    exact ih _ _

/-- C9 (code evidence): when fetching/decoding the next block fails (here
the next frame is a preface not followed by a data frame, so
bgzf2_decode_block returns -1), bgzf2_read does NOT return -1: the decode
result is stored into a `size_t n`, the `if (n < 0)` test never fires, and
the call loops forever copying 0 bytes — modelled as returning `none` for
every fuel bound. -/
theorem bgzf2_read_decode_error_diverges :
    (bgzf2_decode_block (rInit [Frame.preface 5])).1 = -1 ∧
    ∀ fuel : Nat, bgzf2_read fuel (rInit [Frame.preface 5]) 1 = none := by
  constructor
  · rfl
  · intro fuel
    rw [bgzf2_read]
    rw [if_neg (by decide : ¬ (rInit [Frame.preface 5]).hitEof = true)]
    exact bgzf2_read_loop_err_none fuel [] 0

/-- C10: a data frame with content size 0 makes bgzf2_read_block return 0
(the EOF code); sequential reading of a file containing such a frame
delivers exactly the bytes before it, latches hit_eof, and every later
bgzf2_read returns 0 immediately, so frames after the zero-length frame
are never returned. -/
theorem bgzf2_read_zero_frame_eof (csize : List Nat → Nat)
    (ds : List (List Nat)) (c : Nat) (rest : List Frame) (hds : dsGood ds) :
    bgzf2_read_block (Frame.preface c :: Frame.data [] :: rest) = BlockRes.eof ∧
    readAllBytes (pairsOf csize ds ++ (Frame.preface c :: Frame.data [] :: rest))
      = some (concatL ds) ∧
    (∀ (st : RState) (fuel k : Nat), st.hitEof = true →
      bgzf2_read fuel st k = some (st, [], 0)) := by
  refine ⟨rfl, ?_, ?_⟩
  · exact readAllBytes_spec csize ds (Frame.preface c :: Frame.data [] :: rest) hds rfl
  · intro st fuel k h
    rw [bgzf2_read, if_pos h]

/-- Witness for C10 at a concrete input. -/
theorem bgzf2_read_zero_frame_eof_witness :
    bgzf2_read_block (Frame.preface 7 :: Frame.data [] :: [Frame.data [8, 8]])
      = BlockRes.eof ∧
    readAllBytes (pairsOf List.length [[1, 2], [3]]
        ++ (Frame.preface 7 :: Frame.data [] :: [Frame.data [8, 8]]))
      = some [1, 2, 3] ∧
    (∀ (st : RState) (fuel k : Nat), st.hitEof = true →
      bgzf2_read fuel st k = some (st, [], 0)) :=
  bgzf2_read_zero_frame_eof List.length [[1, 2], [3]] 7 [Frame.data [8, 8]] (by decide)

end BGZF2

namespace BGZF2

theorem posAt_nil : ∀ i, posAt [] i = 0
  | 0 => rfl
  | _ + 1 => rfl

theorem posAt_zero (ps : List (Nat × Nat)) : posAt ps 0 = 0 := by
  cases ps <;> rfl

theorem posAt_succ (ps : List (Nat × Nat)) : ∀ i,
    posAt ps (i + 1) = posAt ps i + uncompAt ps i := by
  induction ps with
  | nil => intro i; rw [posAt_nil, posAt_nil]; rfl
  | cons p ps ih =>
    intro i
    cases i with
    | zero =>
      show p.2 + posAt ps 0 = posAt (p :: ps) 0 + uncompAt (p :: ps) 0
      rw [posAt_zero, posAt_zero]
      have huc : uncompAt (p :: ps) 0 = p.2 := rfl
      rw [huc]
      omega
    | succ i =>
      show p.2 + posAt ps (i + 1) = p.2 + posAt ps i + uncompAt (p :: ps) (i + 1)
      rw [ih i]
      have : uncompAt (p :: ps) (i + 1) = uncompAt ps i := rfl
      rw [this]
      omega

theorem posAt_mono (ps : List (Nat × Nat)) {i j : Nat} (h : i ≤ j) :
    posAt ps i ≤ posAt ps j := by
  induction j, h using Nat.le_induction with
  | base => exact le_rfl
  | succ j hij ih =>
    rw [posAt_succ]
    omega

theorem posAt_ge_len (ps : List (Nat × Nat)) : ∀ i, ps.length ≤ i →
    posAt ps i = totalUncomp ps := by
  rw [totalUncomp]
  induction ps with
  | nil => intro i _; rw [posAt_nil, posAt_nil]
  | cons p ps ih =>
    intro i hi
    cases i with
    | zero => simp at hi
    | succ i =>
      show p.2 + posAt ps i = p.2 + posAt ps ps.length
      rw [ih i (by simpa using hi)]

theorem posAt_add_uncomp_le_total (ps : List (Nat × Nat)) (i : Nat)
    (h : i < ps.length) :
    posAt ps i + uncompAt ps i ≤ totalUncomp ps := by
  rw [← posAt_succ]
  rcases Nat.lt_or_ge (i + 1) ps.length with h' | h'
  · rw [totalUncomp]
    exact posAt_mono ps (le_of_lt h')
  · rw [posAt_ge_len ps (i + 1) h']

theorem skipFwd_id (ps : List (Nat × Nat)) (fuel i : Nat)
    (h : uncompAt ps i ≠ 0) : skipFwd ps fuel i = i := by
  cases fuel with
  | zero => rfl
  | succ f =>
    rw [skipFwd, if_neg]
    intro hc
    exact h hc.2

theorem skipFwd_le (ps : List (Nat × Nat)) : ∀ (fuel i : Nat),
    i ≤ ps.length - 1 → skipFwd ps fuel i ≤ ps.length - 1 := by
  intro fuel
  induction fuel with
  | zero => intro i h; exact h
  | succ f ih =>
    intro i h
    rw [skipFwd]
    by_cases hc : i + 1 < ps.length ∧ uncompAt ps i = 0
    · rw [if_pos hc]
      exact ih (i + 1) (by omega)
    · rw [if_neg hc]
      exact h

theorem skipFwd_eq (ps : List (Nat × Nat)) (d : Nat) (hd : d < ps.length)
    (hnz : uncompAt ps d ≠ 0) : ∀ (fuel i : Nat), i ≤ d →
    (∀ m, i ≤ m → m < d → uncompAt ps m = 0) → d - i ≤ fuel →
    skipFwd ps fuel i = d := by
  intro fuel
  induction fuel with
  | zero =>
    intro i h1 _ h3
    have : i = d := by omega
    subst this
    rfl
  | succ f ih =>
    intro i h1 hz h3
    by_cases hid : i = d
    · subst hid
      exact skipFwd_id ps (f + 1) i hnz
    · have hlt : i < d := by omega
      rw [skipFwd, if_pos ⟨by omega, hz i le_rfl hlt⟩]
      exact ih (i + 1) (by omega) (fun m hm1 hm2 => hz m (by omega) hm2) (by omega)

theorem walkBack_spec (ps : List (Nat × Nat)) : ∀ i,
    walkBack ps i ≤ i ∧
    (∀ m, walkBack ps i ≤ m → m < i → uncompAt ps m = 0) ∧
    (walkBack ps i = 0 ∨ uncompAt ps (walkBack ps i - 1) ≠ 0) := by
  intro i
  induction i with
  | zero => exact ⟨le_rfl, fun m _ hm => absurd hm (by omega), Or.inl rfl⟩
  | succ i ih =>
    obtain ⟨ih1, ih2, ih3⟩ := ih
    by_cases h : uncompAt ps i = 0
    · rw [walkBack, if_pos h]
      refine ⟨by omega, ?_, ih3⟩
      intro m hm1 hm2
      rcases Nat.lt_or_ge m i with hmi | hmi
      · exact ih2 m hm1 hmi
      · have : m = i := by omega
        subst this
        exact h
    · rw [walkBack, if_neg h]
      exact ⟨le_rfl, fun m hm1 hm2 => absurd hm1 (by omega),
             Or.inr (by simpa using h)⟩

end BGZF2

namespace BGZF2

theorem bsearch_exit (ps : List (Nat × Nat)) (u : Nat) (hn : 1 ≤ ps.length)
    (istart iend imid : Nat)
    (h1 : istart ≤ imid) (h2 : imid ≤ iend) (h3 : iend + 1 ≤ ps.length)
    (hA : istart = 0 ∨ posAt ps istart < u)
    (hB : iend = ps.length - 1 ∨ u ≤ posAt ps iend)
    (hM : imid = (istart + iend) / 2 ∨ (istart = 0 ∧ imid = (iend + 1) / 2))
    (heq : imid = istart) :
    imid ≤ ps.length - 1 ∧
    (imid = 0 ∨ posAt ps imid < u) ∧
    (ps.length ≤ imid + 1 ∨ u ≤ posAt ps (imid + 1) ∨ imid + 1 = ps.length - 1) := by
  subst heq
  have hie : iend ≤ imid + 1 := by
    rcases hM with h | ⟨h0, h⟩
    · omega
    · omega
  refine ⟨by omega, hA, ?_⟩
  have hcases : iend = imid ∨ iend = imid + 1 := by omega
  rcases hcases with hc | hc
  · rcases hB with hb | hb
    · left; omega
    · rcases hA with ha | ha
      · right; left
        have h0 : posAt ps imid = 0 := by rw [ha]; exact posAt_zero ps
        have hu0 : u = 0 := by rw [hc] at hb; omega
        omega
      · rw [hc] at hb; omega
  · rcases hB with hb | hb
    · right; right; omega
    · right; left; rw [← hc]; exact hb

theorem bsearchLoop_post (ps : List (Nat × Nat)) (u : Nat) (hn : 1 ≤ ps.length) :
    ∀ (fuel istart iend imid : Nat),
      istart ≤ imid → imid ≤ iend → iend + 1 ≤ ps.length →
      (istart = 0 ∨ posAt ps istart < u) →
      (iend = ps.length - 1 ∨ u ≤ posAt ps iend) →
      (imid = (istart + iend) / 2 ∨ (istart = 0 ∧ imid = (iend + 1) / 2)) →
      (imid = istart ∨ iend - istart + 1 ≤ fuel) →
      bsearchLoop ps u fuel istart iend imid ≤ ps.length - 1 ∧
      (bsearchLoop ps u fuel istart iend imid = 0 ∨
        posAt ps (bsearchLoop ps u fuel istart iend imid) < u) ∧
      (ps.length ≤ bsearchLoop ps u fuel istart iend imid + 1 ∨
        u ≤ posAt ps (bsearchLoop ps u fuel istart iend imid + 1) ∨
        bsearchLoop ps u fuel istart iend imid + 1 = ps.length - 1) := by
  intro fuel
  induction fuel with
  | zero =>
    intro istart iend imid h1 h2 h3 hA hB hM hF
    have heq : imid = istart := by
      rcases hF with h | h
      · exact h
      · omega
    rw [bsearchLoop, if_pos heq]
    exact bsearch_exit ps u hn istart iend imid h1 h2 h3 hA hB hM heq
  | succ f ih =>
    intro istart iend imid h1 h2 h3 hA hB hM hF
    by_cases heq : imid = istart
    · rw [bsearchLoop, if_pos heq]
      exact bsearch_exit ps u hn istart iend imid h1 h2 h3 hA hB hM heq
    · rw [bsearchLoop, if_neg heq]
      by_cases hcmp : u ≤ posAt ps imid
      · rw [if_pos hcmp]
        apply ih istart imid ((istart + imid) / 2) (by omega) (by omega) (by omega)
          hA (Or.inr hcmp) (Or.inl rfl)
        by_cases hmm : (istart + imid) / 2 = istart
        · exact Or.inl hmm
        · right
          rcases hM with h | ⟨h0, h⟩
          · omega
          · omega
      · rw [if_neg hcmp]
        have hlt : posAt ps imid < u := by omega
        apply ih imid iend ((imid + iend) / 2) (by omega) (by omega) h3
          (Or.inr hlt) hB (Or.inl rfl)
        by_cases hmm : (imid + iend) / 2 = imid
        · exact Or.inl hmm
        · right
          omega

end BGZF2

namespace BGZF2

theorem qFinish_hit (ps : List (Nat × Nat)) (u k1 : Nat)
    (h : ¬ (posAt ps k1 + uncompAt ps k1 ≤ u)) :
    qFinish ps u k1 = some (walkBack ps k1) := by
  rw [qFinish, if_neg h]

theorem qFinish_miss (ps : List (Nat × Nat)) (u k1 : Nat)
    (h : posAt ps k1 + uncompAt ps k1 ≤ u) :
    qFinish ps u k1
      = qFinish2 ps u (skipFwd ps ps.length (if k1 + 1 < ps.length then k1 + 1 else k1)) := by
  rw [qFinish, if_pos h]

theorem qFinish2_hit (ps : List (Nat × Nat)) (u k3 : Nat)
    (h : ¬ (posAt ps k3 + uncompAt ps k3 ≤ u)) :
    qFinish2 ps u k3 = some (walkBack ps k3) := by
  rw [qFinish2, if_neg h]

theorem qFinish2_miss (ps : List (Nat × Nat)) (u k3 : Nat)
    (h : posAt ps k3 + uncompAt ps k3 ≤ u) :
    qFinish2 ps u k3 = none := by
  rw [qFinish2, if_pos h]

theorem index_query_covers (ps : List (Nat × Nat)) (u d : Nat)
    (hd : d < ps.length) (hpos : posAt ps d ≤ u)
    (hcov : u < posAt ps d + uncompAt ps d) :
    index_query ps u = some (walkBack ps d) := by
  have hn : 1 ≤ ps.length := by omega
  have hdnz : uncompAt ps d ≠ 0 := by omega
  have hpost := bsearchLoop_post ps u hn ps.length 0 (ps.length - 1)
    ((ps.length - 1 + 1) / 2) (by omega) (by omega) (by omega)
    (Or.inl rfl) (Or.inl rfl) (Or.inr ⟨rfl, rfl⟩) (Or.inr (by omega))
  set k := bsearchLoop ps u ps.length 0 (ps.length - 1) ((ps.length - 1 + 1) / 2)
    with hkdef
  obtain ⟨hk1, hkA, hkB⟩ := hpost
  have hsd : posAt ps (d + 1) = posAt ps d + uncompAt ps d := posAt_succ ps d
  have hkd : k ≤ d := by
    by_contra hgt
    push_neg at hgt
    have hmono : posAt ps (d + 1) ≤ posAt ps k := posAt_mono ps (by omega)
    rcases hkA with h0 | hlt
    · omega
    · omega
  rw [index_query]
  by_cases hble : u ≤ posAt ps (k + 1)
  · -- the binary search landed at most one data frame before d
    rcases Nat.eq_or_lt_of_le hkd with hkde | hklt
    · -- k = d: the landing entry itself covers u
      subst hkde
      rw [skipFwd_id ps ps.length k hdnz]
      rw [qFinish_hit ps u k (by omega)]
    · -- k < d: all entries strictly between k and d are skippable
      have hzeros : ∀ j, k < j → j < d → uncompAt ps j = 0 := by
        intro j hj1 hj2
        have hup : u ≤ posAt ps j := le_trans hble (posAt_mono ps (by omega))
        have hdownj : posAt ps (j + 1) ≤ posAt ps d := posAt_mono ps (by omega)
        have hsj : posAt ps (j + 1) = posAt ps j + uncompAt ps j := posAt_succ ps j
        omega
      by_cases hkz : uncompAt ps k = 0
      · -- skip forward lands directly on d
        have hskip : skipFwd ps ps.length k = d := by
          apply skipFwd_eq ps d hd hdnz ps.length k (by omega)
          · intro m hm1 hm2
            rcases Nat.eq_or_lt_of_le hm1 with hmk | hmk
            · rw [← hmk]; exact hkz
            · exact hzeros m hmk hm2
          · omega
        rw [hskip, qFinish_hit ps u d (by omega)]
      · -- the landing entry is a data frame ending exactly at u
        rw [skipFwd_id ps ps.length k hkz]
        have hsk : posAt ps (k + 1) = posAt ps k + uncompAt ps k := posAt_succ ps k
        have hkend : posAt ps k + uncompAt ps k ≤ u := by
          have : posAt ps (k + 1) ≤ posAt ps d := posAt_mono ps (by omega)
          omega
        rw [qFinish_miss ps u k hkend]
        rw [if_pos (by omega : k + 1 < ps.length)]
        have hskip : skipFwd ps ps.length (k + 1) = d := by
          apply skipFwd_eq ps d hd hdnz ps.length (k + 1) (by omega)
          · intro m hm1 hm2
            exact hzeros m (by omega) hm2
          · omega
        rw [hskip, qFinish2_hit ps u d (by omega)]
  · -- u is past entry k+1; the search invariant pins d down
    rcases hkB with hb1 | hb2 | hb3
    · -- k is the last entry, so d = k
      have hkde : d = k := by omega
      rw [hkde] at hpos hcov hdnz ⊢
      rw [skipFwd_id ps ps.length k hdnz]
      rw [qFinish_hit ps u k (by omega)]
    · exact absurd hb2 hble
    · -- k + 1 = nindex - 1 and posAt (k+1) < u force d = k + 1
      have hdk : d = k + 1 := by
        rcases Nat.lt_or_ge k d with h' | h'
        · have : d ≤ k + 1 := by omega
          omega
        · -- d ≤ k contradicts posAt (k+1) < u
          have hmono : posAt ps (d + 1) ≤ posAt ps (k + 1) := posAt_mono ps (by omega)
          omega
      by_cases hkz : uncompAt ps k = 0
      · have hskip : skipFwd ps ps.length k = d := by
          apply skipFwd_eq ps d hd hdnz ps.length k (by omega)
          · intro m hm1 hm2
            have : m = k := by omega
            rw [this]; exact hkz
          · omega
        rw [hskip, qFinish_hit ps u d (by omega)]
      · rw [skipFwd_id ps ps.length k hkz]
        have hsk : posAt ps (k + 1) = posAt ps k + uncompAt ps k := posAt_succ ps k
        rw [qFinish_miss ps u k (by omega)]
        rw [if_pos (by omega : k + 1 < ps.length)]
        rw [← hdk, skipFwd_id ps ps.length d hdnz]
        rw [qFinish2_hit ps u d (by omega)]

theorem index_query_past_end (ps : List (Nat × Nat)) (u : Nat)
    (hn : 1 ≤ ps.length) (hu : totalUncomp ps ≤ u) :
    index_query ps u = none := by
  have hpost := bsearchLoop_post ps u hn ps.length 0 (ps.length - 1)
    ((ps.length - 1 + 1) / 2) (by omega) (by omega) (by omega)
    (Or.inl rfl) (Or.inl rfl) (Or.inr ⟨rfl, rfl⟩) (Or.inr (by omega))
  set k := bsearchLoop ps u ps.length 0 (ps.length - 1) ((ps.length - 1 + 1) / 2)
    with hkdef
  obtain ⟨hk1, _, _⟩ := hpost
  rw [index_query]
  have hk1le : skipFwd ps ps.length k ≤ ps.length - 1 := skipFwd_le ps ps.length k hk1
  have hle1 : posAt ps (skipFwd ps ps.length k)
      + uncompAt ps (skipFwd ps ps.length k) ≤ u := by
    have := posAt_add_uncomp_le_total ps (skipFwd ps ps.length k) (by omega)
    omega
  rw [qFinish_miss ps u _ hle1]
  have hk2le : (if skipFwd ps ps.length k + 1 < ps.length
      then skipFwd ps ps.length k + 1 else skipFwd ps ps.length k) ≤ ps.length - 1 := by
    by_cases h : skipFwd ps ps.length k + 1 < ps.length
    · rw [if_pos h]; omega
    · rw [if_neg h]; omega
  have hk3le : skipFwd ps ps.length (if skipFwd ps ps.length k + 1 < ps.length
      then skipFwd ps ps.length k + 1 else skipFwd ps ps.length k) ≤ ps.length - 1 :=
    skipFwd_le ps ps.length _ hk2le
  apply qFinish2_miss
  have := posAt_add_uncomp_le_total ps
    (skipFwd ps ps.length (if skipFwd ps ps.length k + 1 < ps.length
      then skipFwd ps ps.length k + 1 else skipFwd ps ps.length k)) (by omega)
  omega

theorem exists_cover : ∀ (ps : List (Nat × Nat)) (u : Nat),
    u < totalUncomp ps →
    ∃ d, d < ps.length ∧ posAt ps d ≤ u ∧ u < posAt ps d + uncompAt ps d := by
  intro ps
  induction ps with
  | nil =>
    intro u hu
    rw [totalUncomp, posAt_nil] at hu
    omega
  | cons p ps ih =>
    intro u hu
    have htot : totalUncomp (p :: ps) = p.2 + totalUncomp ps := by
      rw [totalUncomp, totalUncomp]
      rfl
    rcases Nat.lt_or_ge u p.2 with hlt | hge
    · refine ⟨0, by simp, by rw [posAt_zero]; omega, ?_⟩
      rw [posAt_zero]
      have : uncompAt (p :: ps) 0 = p.2 := rfl
      omega
    · obtain ⟨d, hd1, hd2, hd3⟩ := ih (u - p.2) (by omega)
      refine ⟨d + 1, by simpa using hd1, ?_, ?_⟩
      · show p.2 + posAt ps d ≤ u
        omega
      · show u < p.2 + posAt ps d + uncompAt (p :: ps) (d + 1)
        have : uncompAt (p :: ps) (d + 1) = uncompAt ps d := rfl
        omega

end BGZF2

namespace BGZF2

/-- C2: for every loaded seekable index (any entry list, with pos the
running uncomp sums as load_seekable_index computes them): if `u` lies in
a data frame `d` (posAt d ≤ u < posAt d + uncompAt d), index_query returns
a non-NULL entry `r` (a real entry: r ≤ d < nindex) such that the first
entry at or after `r` with uncomp_sz > 0 is `d` and it covers `u`
(every entry in [r, d) has uncomp_sz = 0, uncompAt d ≠ 0, and
posAt d ≤ u < posAt d + uncompAt d restated in the conclusion), and the
entry immediately before `r` (if any) has uncomp_sz > 0, i.e. `r` sits on
the first of the consecutive skippable-frame entries preceding `d`; and on
a non-empty index, index_query returns NULL with ERANGE (modelled as none,
the only NULL path) exactly when `u` is at or past the end of all data. -/
theorem index_query_spec (ps : List (Nat × Nat)) (u : Nat) :
    (∀ d, d < ps.length → posAt ps d ≤ u → u < posAt ps d + uncompAt ps d →
      ∃ r, index_query ps u = some r ∧ r ≤ d ∧ d < ps.length ∧
        posAt ps d ≤ u ∧ u < posAt ps d + uncompAt ps d ∧ uncompAt ps d ≠ 0 ∧
        (∀ m, r ≤ m → m < d → uncompAt ps m = 0) ∧
        (r = 0 ∨ uncompAt ps (r - 1) ≠ 0)) ∧
    (1 ≤ ps.length → (index_query ps u = none ↔ totalUncomp ps ≤ u)) := by
  constructor
  · intro d hd hpos hcov
    obtain ⟨hw1, hw2, hw3⟩ := walkBack_spec ps d
    exact ⟨walkBack ps d, index_query_covers ps u d hd hpos hcov, hw1, hd,
           hpos, hcov, by omega, hw2, hw3⟩
  · intro hn
    constructor
    · intro hnone
      by_contra hlt
      obtain ⟨d, hd, h1, h2⟩ := exists_cover ps u (by omega)
      rw [index_query_covers ps u d hd h1 h2] at hnone
      exact Option.noConfusion hnone
    · intro hu
      exact index_query_past_end ps u hn hu

/-- Witness for C2 on the index of a two-data-frame file
(entries: preface, 5-byte data, preface, 7-byte data). -/
theorem index_query_spec_witness :
    (∃ r, index_query [(12, 0), (40, 5), (12, 0), (50, 7)] 6 = some r ∧
      r ≤ 3 ∧ 3 < [(12, 0), (40, 5), (12, 0), (50, 7)].length ∧
      posAt [(12, 0), (40, 5), (12, 0), (50, 7)] 3 ≤ 6 ∧
      6 < posAt [(12, 0), (40, 5), (12, 0), (50, 7)] 3 +
        uncompAt [(12, 0), (40, 5), (12, 0), (50, 7)] 3 ∧
      uncompAt [(12, 0), (40, 5), (12, 0), (50, 7)] 3 ≠ 0 ∧
      (∀ m, r ≤ m → m < 3 → uncompAt [(12, 0), (40, 5), (12, 0), (50, 7)] m = 0) ∧
      (r = 0 ∨ uncompAt [(12, 0), (40, 5), (12, 0), (50, 7)] (r - 1) ≠ 0)) ∧
    index_query [(12, 0), (40, 5), (12, 0), (50, 7)] 12 = none :=
  ⟨(index_query_spec [(12, 0), (40, 5), (12, 0), (50, 7)] 6).1 3
      (by decide) (by decide) (by decide),
   ((index_query_spec [(12, 0), (40, 5), (12, 0), (50, 7)] 12).2
      (by decide)).mpr (by decide)⟩

/-- C4 counterexample: on the index of a file with one 5-byte data frame
(total uncompressed length T = 5), bgzf2_seek at exactly T returns -1
(index_query fails with ERANGE), not 0 as the claim states: the range
check `idx[imid].pos + idx[imid].uncomp <= upos` rejects upos = T. -/
theorem bgzf2_seek_total_counterexample :
    totalUncomp [(12, 0), (40, 5)] = 5 ∧
    bgzf2_seek [(12, 0), (40, 5)] 5 = -1 ∧
    index_query [(12, 0), (40, 5)] 5 = none ∧
    ((-1 : Int) ≠ 0) := by
  refine ⟨rfl, rfl, rfl, by decide⟩

/-- C4 (amended): for a readable BGZF2 file with a loaded non-empty index
of total uncompressed length T, bgzf2_seek(fp, u) fails with a Range error
(index_query returns NULL with errno ERANGE) for every u ≥ T — including
u = T itself — and succeeds for every u < T. -/
theorem bgzf2_seek_range (ps : List (Nat × Nat)) (u : Nat)
    (hn : 1 ≤ ps.length) :
    (totalUncomp ps ≤ u → index_query ps u = none ∧ bgzf2_seek ps u = -1) ∧
    (u < totalUncomp ps → bgzf2_seek ps u = 0) := by
  constructor
  · intro hu
    have h := index_query_past_end ps u hn hu
    exact ⟨h, by rw [bgzf2_seek, h]⟩
  · intro hu
    obtain ⟨d, hd, h1, h2⟩ := exists_cover ps u hu
    have hq := index_query_covers ps u d hd h1 h2
    rw [bgzf2_seek, hq]

/-- Witness for C4's amended theorem. -/
theorem bgzf2_seek_range_witness :
    (index_query [(12, 0), (40, 5)] 7 = none ∧
      bgzf2_seek [(12, 0), (40, 5)] 7 = -1) ∧
    bgzf2_seek [(12, 0), (40, 5)] 3 = 0 :=
  ⟨(bgzf2_seek_range [(12, 0), (40, 5)] 7 (by decide)).1 (by decide),
   (bgzf2_seek_range [(12, 0), (40, 5)] 3 (by decide)).2 (by decide)⟩

/-- C6 (code evidence): load_seekable_index computes
`has_chksum = footer[4] & 0x80`, i.e. 128 when flag bit 7 is set, so the
per-entry stride becomes 4*(2+128) = 520 bytes and the frame size
9 + N*520 + 8 instead of the 12-byte entries (9 + N*12 + 8) the zstd
seekable format prescribes: on a valid 29-byte index frame with N = 1 and
flags = 0x80 the code computes size 537 and fails with -1 instead of
reading the index. -/
theorem load_seekable_index_checksum_stride :
    idxFrameSz fileChkIdx = 537 ∧
    9 + 1 * 12 + 8 = 29 ∧
    fileChkIdx.length = 29 ∧
    load_seekable_index fileChkIdx true = (-1, []) ∧
    (0x80 : Nat) &&& 0x80 = 128 := by
  refine ⟨rfl, rfl, rfl, rfl, rfl⟩

/-- C8: the return codes of load_seekable_index: -2 exactly on a
non-seekable stream (end-seek fails with ESPIPE); -1 when the 9-byte
footer read or the whole-frame seek fails (I/O error: file shorter than
required); -3 when no index is present (trailing magic mismatch or
reserved flag bits 2-6 set, or the index frame header magic/length
mismatch); 0 on success. -/
theorem load_seekable_index_codes (file : List Nat) :
    ((load_seekable_index file false).1 = -2) ∧
    (file.length < 9 → (load_seekable_index file true).1 = -1) ∧
    (9 ≤ file.length → ¬ trailingOk file → (load_seekable_index file true).1 = -3) ∧
    (9 ≤ file.length → trailingOk file → file.length < idxFrameSz file →
      (load_seekable_index file true).1 = -1) ∧
    (9 ≤ file.length → trailingOk file → idxFrameSz file ≤ file.length →
      ¬ headOk file → (load_seekable_index file true).1 = -3) ∧
    (9 ≤ file.length → trailingOk file → idxFrameSz file ≤ file.length →
      headOk file → (load_seekable_index file true).1 = 0) := by
  refine ⟨rfl, ?_, ?_, ?_, ?_, ?_⟩
  · intro h
    rw [load_seekable_index]
    rw [if_neg (by simp)]
    rw [if_pos h]
  · intro h1 h2
    rw [load_seekable_index, if_neg (by simp), if_neg (by omega)]
    rw [if_pos (by exact h2)]
  · intro h1 h2 h3
    rw [load_seekable_index, if_neg (by simp), if_neg (by omega)]
    rw [if_neg (by exact fun hc => hc h2)]
    rw [if_pos (by exact h3)]
  · intro h1 h2 h3 h4
    rw [load_seekable_index, if_neg (by simp), if_neg (by omega)]
    rw [if_neg (by exact fun hc => hc h2)]
    rw [if_neg (by exact Nat.not_lt.mpr h3)]
    rw [if_pos (by exact h4)]
  · intro h1 h2 h3 h4
    rw [load_seekable_index, if_neg (by simp), if_neg (by omega)]
    rw [if_neg (by exact fun hc => hc h2)]
    rw [if_neg (by exact Nat.not_lt.mpr h3)]
    rw [if_neg (by exact fun hc => hc h4)]

/-- Witness for C8: the 17-byte valid empty index loads with code 0, and a
non-seekable stream gives -2. -/
theorem load_seekable_index_codes_witness :
    (load_seekable_index fileEmptyIdx true).1 = 0 ∧
    (load_seekable_index fileEmptyIdx false).1 = -2 :=
  ⟨(load_seekable_index_codes fileEmptyIdx).2.2.2.2.2
      (by decide) (by decide) (by decide) (by decide),
   (load_seekable_index_codes fileEmptyIdx).1⟩

end BGZF2
